import Mathlib

/-!
Shallow embedding of the core of the Wordle assignment
(`wordle_core.py` and the multiplayer guess handling of `server.py`).

Strings are modelled as lists of characters.  Python's `str.strip` /
`str.lower` are modelled on the ASCII word domain of the program:
`isWS` is the set of ASCII whitespace characters stripped by `strip`,
and `pyToLower` is ASCII lower-casing.
-/

namespace WordleCore

/-- Pattern tokens: `HIT = "O"`, `PRESENT = "?"`, `MISS = "_"`. -/
inductive Token
  | hit
  | present
  | miss
deriving DecidableEq, Repr

/-- ASCII whitespace, as stripped by Python `str.strip` on this domain. -/
def isWS (c : Char) : Bool :=
  c.toNat = 32 || c.toNat = 9 || c.toNat = 10 ||
  c.toNat = 13 || c.toNat = 11 || c.toNat = 12

/-- ASCII lower-casing, modelling `str.lower` on the word domain. -/
def pyToLower (c : Char) : Char :=
  if 65 ≤ c.toNat ∧ c.toNat ≤ 90 then Char.ofNat (c.toNat + 32) else c

/-- Python `str.strip`: drop whitespace at both ends. -/
def pyStrip (w : List Char) : List Char :=
  ((w.dropWhile isWS).reverse.dropWhile isWS).reverse

/-- `wordle_core.normalize`: strip, then lower-case. -/
def normalize (w : List Char) : List Char :=
  (pyStrip w).map pyToLower

/-- First pass of `score_guess`: mark hits positionally. -/
def firstPass : List Char → List Char → List Token
  | x :: xs, y :: ys => (if y = x then Token.hit else Token.miss) :: firstPass xs ys
  | _, _ => []

/-- First pass of `score_guess`: the `remain` counter of answer letters at
non-hit positions (`remain[a[i]] += 1`). -/
def remainInit : List Char → List Char → Char → Nat
  | x :: xs, y :: ys => fun c =>
      (if y ≠ x ∧ x = c then 1 else 0) + remainInit xs ys c
  | _, _ => fun _ => 0

/-- Second pass of `score_guess`: walk the guess letters paired with the
first-pass tokens, turning a miss into a present while availability lasts. -/
def secondPass : List (Char × Token) → (Char → Nat) → List Token
  | [], _ => []
  | (c, t) :: rest, remain =>
    if t = Token.hit then
      Token.hit :: secondPass rest remain
    else if remain c > 0 then
      Token.present :: secondPass rest (fun x => if x = c then remain c - 1 else remain x)
    else
      Token.miss :: secondPass rest remain

/-- The two-pass pattern computation on already-normalized words. -/
def scoreCore (a g : List Char) : List Token :=
  secondPass (g.zip (firstPass a g)) (remainInit a g)

/-- `wordle_core.score_guess`: normalize both words, fail on a length
mismatch (the `ValueError`), otherwise run the two passes. -/
def score_guess (answer guess : List Char) : Option (List Token) :=
  let a := normalize answer
  let g := normalize guess
  if a.length = g.length then some (scoreCore a g) else none

/-- The error taxonomy of the spec, as raised by the code:
`invalidInput` is the length-mismatch `ValueError`, `illegalWord` the
dictionary `ValueError`, `internalErr` the crash on an empty bucket list,
`gameOver` the room-level "Game already over." rejection. -/
inductive GameError
  | invalidInput
  | illegalWord
  | internalErr
  | gameOver
deriving DecidableEq, Repr

/-- `GameConfig`: max rounds plus word list (`max_rounds` is a Python int). -/
structure GameConfig where
  max_rounds : Int
  word_list : List (List Char)
deriving DecidableEq, Repr

/-- `RoundResult`: guess, tokens, remaining, won, over.  `remaining` is a
Python int (`max_rounds - round`), so it is modelled as `Int`. -/
structure RoundResult where
  guess : List Char
  tokens : List Token
  remaining : Int
  won : Bool
  over : Bool
deriving DecidableEq, Repr

/-- Outcome of a `guess_word` call: a result or a raised error. -/
inductive GRes
  | ok (rr : RoundResult)
  | err (e : GameError)
deriving DecidableEq, Repr

/-- Mutable state of `NormalWordleGame`. -/
structure NormalWordleGame where
  answer : List Char
  cfg : GameConfig
  round : Nat
  history : List RoundResult
deriving DecidableEq, Repr

/-- `NormalWordleGame.__init__`: the answer is normalized once, round 0,
empty history. -/
def NormalWordleGame.init (answer : List Char) (cfg : GameConfig) : NormalWordleGame :=
  { answer := normalize answer, cfg := cfg, round := 0, history := [] }

/-- `NormalWordleGame.guess_word`.  The checks are performed in source
order: normalize, length check, dictionary check; then the round counter is
incremented, the pattern computed, and the `RoundResult` appended.  The
returned pair carries the mutated object state (on a raised error the state
is whatever the object holds when the exception escapes). -/
def NormalWordleGame.guess_word (st : NormalWordleGame) (w : List Char) :
    GRes × NormalWordleGame :=
  let word := normalize w
  if word.length ≠ st.answer.length then (GRes.err GameError.invalidInput, st)
  else if word ∉ st.cfg.word_list then (GRes.err GameError.illegalWord, st)
  else
    let round := st.round + 1
    match score_guess st.answer word with
    | none => (GRes.err GameError.invalidInput, { st with round := round })
    | some tokens =>
      let won := tokens.all (fun t => t == Token.hit)
      let over := won || ((round : Int) ≥ st.cfg.max_rounds)
      let rr : RoundResult :=
        { guess := word, tokens := tokens, remaining := st.cfg.max_rounds - round,
          won := won, over := over }
      (GRes.ok rr, { st with round := round, history := st.history ++ [rr] })

/-- Python truthiness of `self.final` (`None` and the empty string are
falsy). -/
def optTruthy : Option (List Char) → Bool
  | none => false
  | some w => !w.isEmpty

/-- Mutable state of `CheatingWordleGame`. -/
structure CheatingWordleGame where
  cfg : GameConfig
  candidates : List (List Char)
  final : Option (List Char)
  round : Nat
deriving DecidableEq, Repr

/-- `CheatingWordleGame.__init__`: candidates start as `set(cfg.word_list)`
(duplicates collapse), no final answer, round 0. -/
def CheatingWordleGame.init (cfg : GameConfig) : CheatingWordleGame :=
  { cfg := cfg, candidates := cfg.word_list.dedup, final := none, round := 0 }

/-- A bucket of the partition: key `(hits, presents, pattern)` with the
candidates producing that pattern. -/
abbrev Bucket := (Nat × Nat × List Token) × List (List Char)

/-- `buckets.setdefault(key, set()).add(c)` over an insertion-ordered dict. -/
def addToBuckets (k : Nat × Nat × List Token) (c : List Char) :
    List Bucket → List Bucket
  | [] => [(k, [c])]
  | (k', s) :: rest =>
    if k' = k then (k', s ++ [c]) :: rest
    else (k', s) :: addToBuckets k c rest

/-- The partition loop of `CheatingWordleGame.guess_word`: score every
candidate against the guess and group by `(h, p, pattern)`.  `none` models
the `ValueError` escaping from `score_guess` on a length mismatch. -/
def buildBuckets (word : List Char) : List (List Char) → List Bucket → Option (List Bucket)
  | [], acc => some acc
  | c :: cs, acc =>
    match score_guess c word with
    | none => none
    | some pat =>
      let h := pat.count Token.hit
      let p := pat.count Token.present
      buildBuckets word cs (addToBuckets (h, p, pat) c acc)

/-- The strict tuple comparison `(h, p) < (bh, bp)` of Python (lexicographic). -/
def keyLtb (x y : Nat × Nat) : Bool :=
  x.1 < y.1 || (x.1 = y.1 && x.2 < y.2)

/-- Lexicographic `≤` on `(hits, presents)` keys. -/
def keyLe (x y : Nat × Nat) : Prop :=
  x.1 < y.1 ∨ (x.1 = y.1 ∧ x.2 ≤ y.2)

/-- The selection loop of `CheatingWordleGame.guess_word`: scan the buckets
keeping the best so far (smaller `(h, p)`, or equal `(h, p)` and strictly
larger bucket). -/
def selectBucket : List Bucket → Option Bucket → Option Bucket
  | [], best => best
  | b :: rest, none => selectBucket rest (some b)
  | b :: rest, some best =>
    if keyLtb (b.1.1, b.1.2.1) (best.1.1, best.1.2.1) ||
       ((b.1.1, b.1.2.1) = (best.1.1, best.1.2.1) && b.2.length > best.2.length)
    then selectBucket rest (some b)
    else selectBucket rest (some best)

/-- The `(hitCount, presentCount)` part of a bucket's key. -/
def keyOf (b : Bucket) : Nat × Nat := (b.1.1, b.1.2.1)

/-- Total number of candidates stored across a bucket list. -/
def bucketsSize (bs : List Bucket) : Nat := (bs.map (fun b => b.2.length)).sum

/-- `CheatingWordleGame.guess_word`.  Source order: normalize, dictionary
check, delegation when `self.final` is truthy (a **fresh**
`NormalWordleGame` per call, `self` untouched), otherwise increment the
round, partition, select, replace the candidates, resolve the final answer
when one candidate remains.  Error cases keep the partial mutations the
exception leaves behind. -/
def CheatingWordleGame.guess_word (st : CheatingWordleGame) (w : List Char) :
    GRes × CheatingWordleGame :=
  let word := normalize w
  if word ∉ st.cfg.word_list then (GRes.err GameError.illegalWord, st)
  else if optTruthy st.final then
    (((NormalWordleGame.init (st.final.getD []) st.cfg).guess_word word).1, st)
  else
    let round := st.round + 1
    match buildBuckets word st.candidates [] with
    | none => (GRes.err GameError.invalidInput, { st with round := round })
    | some buckets =>
      match selectBucket buckets none with
      | none =>
        (GRes.err GameError.internalErr, { st with round := round, candidates := [] })
      | some best =>
        let cands := best.2
        let fin := if cands.length = 1 then some (cands.headD []) else st.final
        let over := (round : Int) ≥ st.cfg.max_rounds
        let rr : RoundResult :=
          { guess := word, tokens := best.1.2.2,
            remaining := st.cfg.max_rounds - round, won := false, over := over }
        (GRes.ok rr, { st with round := round, candidates := cands, final := fin })

/-- Messages emitted by the server's multiplayer guess branch, in send
order: the direct ack, the `"guess"` broadcast, the `"game_over"` broadcast. -/
inductive Msg
  | ackOk (player : List Char) (tokens : List Token) (won over : Bool) (remaining : Int)
  | ackErr (e : GameError)
  | bcastGuess (player : List Char) (tokens : List Token) (won over : Bool) (remaining : Int)
  | bcastGameOver (winner : List Char)
deriving DecidableEq, Repr

/-- `MultiRoom`: one authoritative game plus the room-level `over` flag
(participant streams are outside the modelled state; delivery is recorded
as the emitted message list). -/
structure MultiRoom where
  game : NormalWordleGame
  over : Bool
deriving DecidableEq, Repr

/-- The multiplayer `guess` branch of `server.Handler.handle` (lines
156-194): reject when the room is over; reject a failing guess with an ack
only; otherwise snapshot the data, decide the winner under the lock, then
send ack, `"guess"` broadcast, and `"game_over"` broadcast in that order. -/
def MultiRoom.handleGuess (room : MultiRoom) (player w : List Char) :
    MultiRoom × List Msg :=
  if room.over then (room, [Msg.ackErr GameError.gameOver])
  else
    match room.game.guess_word w with
    | (GRes.err e, game') => ({ room with game := game' }, [Msg.ackErr e])
    | (GRes.ok rr, game') =>
      let winner : Option (List Char) :=
        if rr.won && !room.over then some player else none
      let credited := optTruthy winner
      let room' : MultiRoom :=
        { game := game', over := credited || room.over }
      (room',
        [Msg.ackOk player rr.tokens rr.won rr.over rr.remaining,
         Msg.bcastGuess player rr.tokens rr.won rr.over rr.remaining] ++
        (if credited then [Msg.bcastGameOver (winner.getD [])] else []))

/-- The well-formedness of a bucket list: keys carry the hit/present counts
of their pattern, and every stored candidate scores to exactly the
bucket's pattern. -/
def BucketsWF (w : List Char) (bs : List Bucket) : Prop :=
  ∀ b ∈ bs, (b.1.1 = b.1.2.2.count Token.hit ∧ b.1.2.1 = b.1.2.2.count Token.present) ∧
    ∀ x ∈ b.2, score_guess x w = some b.1.2.2

/-! ### Shared concrete data for witnesses -/

/-- The word "ab". -/
def wA : List Char := ['a', 'b']

/-- The word "cd". -/
def wC : List Char := ['c', 'd']

/-- A two-word configuration with the default six rounds. -/
def cfgSmall : GameConfig := ⟨6, [wA, wC]⟩

/-! ### Normalization lemmas -/

theorem toNat_ofNat_valid (n : Nat) (h : n < 55296) : (Char.ofNat n).toNat = n := by
  have hv : n.isValidChar := Or.inl h
  rw [Char.ofNat, dif_pos hv]
  rfl

theorem toNat_pyToLower (c : Char) :
    (pyToLower c).toNat =
      if 65 ≤ c.toNat ∧ c.toNat ≤ 90 then c.toNat + 32 else c.toNat := by
  unfold pyToLower
  by_cases h : 65 ≤ c.toNat ∧ c.toNat ≤ 90
  · rw [if_pos h, if_pos h, toNat_ofNat_valid _ (by omega)]
  · rw [if_neg h, if_neg h]

theorem pyToLower_eq_self (c : Char) (h : ¬(65 ≤ c.toNat ∧ c.toNat ≤ 90)) :
    pyToLower c = c := by
  unfold pyToLower
  rw [if_neg h]

theorem pyToLower_pyToLower (c : Char) : pyToLower (pyToLower c) = pyToLower c := by
  by_cases h : 65 ≤ c.toNat ∧ c.toNat ≤ 90
  · have ht : (pyToLower c).toNat = c.toNat + 32 := by rw [toNat_pyToLower, if_pos h]
    exact pyToLower_eq_self _ (by omega)
  · have ht : (pyToLower c).toNat = c.toNat := by rw [toNat_pyToLower, if_neg h]
    exact pyToLower_eq_self _ (by omega)

theorem isWS_pyToLower (c : Char) : isWS (pyToLower c) = isWS c := by
  unfold isWS
  rw [toNat_pyToLower]
  by_cases h : 65 ≤ c.toNat ∧ c.toNat ≤ 90
  · rw [if_pos h]
    have h1 : (decide (c.toNat + 32 = 32) || decide (c.toNat + 32 = 9) ||
        decide (c.toNat + 32 = 10) || decide (c.toNat + 32 = 13) ||
        decide (c.toNat + 32 = 11) || decide (c.toNat + 32 = 12)) = false := by
      simp only [Bool.or_eq_false_iff, decide_eq_false_iff_not]
      omega
    have h2 : (decide (c.toNat = 32) || decide (c.toNat = 9) ||
        decide (c.toNat = 10) || decide (c.toNat = 13) ||
        decide (c.toNat = 11) || decide (c.toNat = 12)) = false := by
      simp only [Bool.or_eq_false_iff, decide_eq_false_iff_not]
      omega
    rw [h1, h2]
  · rw [if_neg h]

theorem head?_dropWhile (p : Char → Bool) (l : List Char) :
    ∀ x, (l.dropWhile p).head? = some x → p x = false := by
  induction l with
  | nil => intro x hx; simp at hx
  | cons a t ih =>
    intro x hx
    rw [List.dropWhile_cons] at hx
    by_cases hp : p a
    · rw [if_pos hp] at hx
      exact ih x hx
    · rw [if_neg hp] at hx
      simp only [List.head?_cons, Option.some.injEq] at hx
      rw [← hx]
      exact Bool.of_not_eq_true hp

theorem dropWhile_eq_self_of (p : Char → Bool) (l : List Char)
    (h : ∀ x, l.head? = some x → p x = false) : l.dropWhile p = l := by
  cases l with
  | nil => rfl
  | cons a t =>
    rw [List.dropWhile_cons, if_neg]
    rw [h a rfl]
    simp

theorem pyStrip_head? (w : List Char) :
    ∀ x, (pyStrip w).head? = some x → isWS x = false := by
  intro x hx
  unfold pyStrip at hx
  rw [List.head?_reverse] at hx
  obtain ⟨t, ht⟩ := List.dropWhile_suffix (l := (w.dropWhile isWS).reverse) isWS
  have hlast : (w.dropWhile isWS).reverse.getLast? = some x := by
    rw [← ht, List.getLast?_append, hx]
    rfl
  rw [List.getLast?_reverse] at hlast
  exact head?_dropWhile isWS w x hlast

theorem pyStrip_getLast? (w : List Char) :
    ∀ x, (pyStrip w).getLast? = some x → isWS x = false := by
  intro x hx
  unfold pyStrip at hx
  rw [List.getLast?_reverse] at hx
  exact head?_dropWhile isWS _ x hx

theorem pyStrip_eq_self (l : List Char)
    (h1 : ∀ x, l.head? = some x → isWS x = false)
    (h2 : ∀ x, l.getLast? = some x → isWS x = false) : pyStrip l = l := by
  unfold pyStrip
  rw [dropWhile_eq_self_of isWS l h1]
  rw [dropWhile_eq_self_of isWS l.reverse (by
    intro x hx
    rw [List.head?_reverse] at hx
    exact h2 x hx)]
  exact List.reverse_reverse l

theorem pyStrip_idem (w : List Char) : pyStrip (pyStrip w) = pyStrip w :=
  pyStrip_eq_self _ (pyStrip_head? w) (pyStrip_getLast? w)

theorem normalize_idem (w : List Char) : normalize (normalize w) = normalize w := by
  unfold normalize
  rw [pyStrip_eq_self ((pyStrip w).map pyToLower)
    (by
      intro x hx
      rw [List.head?_map] at hx
      cases hy : (pyStrip w).head? with
      | none => rw [hy] at hx; simp at hx
      | some y =>
        rw [hy] at hx
        simp only [Option.map_some', Option.some.injEq] at hx
        rw [← hx, isWS_pyToLower]
        exact pyStrip_head? w y hy)
    (by
      intro x hx
      rw [List.getLast?_map] at hx
      cases hy : (pyStrip w).getLast? with
      | none => rw [hy] at hx; simp at hx
      | some y =>
        rw [hy] at hx
        simp only [Option.map_some', Option.some.injEq] at hx
        rw [← hx, isWS_pyToLower]
        exact pyStrip_getLast? w y hy)]
  rw [List.map_map]
  exact List.map_congr_left (fun a _ => pyToLower_pyToLower a)

/-! ### Characterizations of `NormalWordleGame.guess_word` -/

theorem score_guess_eq (a g : List Char) (hans : normalize a = a)
    (hg : normalize g = g) (hlen : a.length = g.length) :
    score_guess a g = some (scoreCore a g) := by
  unfold score_guess
  rw [hans, hg, if_pos hlen]

theorem normal_guess_len_err (st : NormalWordleGame) (w : List Char)
    (h : (normalize w).length ≠ st.answer.length) :
    st.guess_word w = (GRes.err GameError.invalidInput, st) := by
  simp only [NormalWordleGame.guess_word]
  rw [if_pos h]

theorem normal_guess_dict_err (st : NormalWordleGame) (w : List Char)
    (hlen : (normalize w).length = st.answer.length)
    (h : normalize w ∉ st.cfg.word_list) :
    st.guess_word w = (GRes.err GameError.illegalWord, st) := by
  simp only [NormalWordleGame.guess_word]
  rw [if_neg (not_not_intro hlen), if_pos h]

theorem normal_guess_spec (st : NormalWordleGame) (w : List Char)
    (hans : normalize st.answer = st.answer)
    (hlen : (normalize w).length = st.answer.length)
    (hmem : normalize w ∈ st.cfg.word_list) :
    st.guess_word w =
      (GRes.ok
        { guess := normalize w,
          tokens := scoreCore st.answer (normalize w),
          remaining := st.cfg.max_rounds - ((st.round + 1 : Nat) : Int),
          won := (scoreCore st.answer (normalize w)).all (fun t => t == Token.hit),
          over := (scoreCore st.answer (normalize w)).all (fun t => t == Token.hit) ||
                  decide (((st.round + 1 : Nat) : Int) ≥ st.cfg.max_rounds) },
       { st with round := st.round + 1,
                 history := st.history ++
                   [{ guess := normalize w,
                      tokens := scoreCore st.answer (normalize w),
                      remaining := st.cfg.max_rounds - ((st.round + 1 : Nat) : Int),
                      won := (scoreCore st.answer (normalize w)).all (fun t => t == Token.hit),
                      over := (scoreCore st.answer (normalize w)).all (fun t => t == Token.hit) ||
                              decide (((st.round + 1 : Nat) : Int) ≥ st.cfg.max_rounds) }] }) := by
  have hscore : score_guess st.answer (normalize w) = some (scoreCore st.answer (normalize w)) :=
    score_guess_eq st.answer (normalize w) hans (normalize_idem w) hlen.symm
  simp only [NormalWordleGame.guess_word]
  rw [if_neg (not_not_intro hlen), if_neg (not_not_intro hmem), hscore]

/-! ### Claim theorems -/

/-- C10: `score_guess` normalizes (trims and lower-cases) both of its
arguments internally, so for all inputs `t`, `g` it returns the same
result as on the pre-normalized inputs. -/
theorem C10_score_guess_normalize_insensitive (t g : List Char) :
    score_guess t g = score_guess (normalize t) (normalize g) := by
  unfold score_guess
  rw [normalize_idem, normalize_idem]

/-- C8 counterexample: scoring target "crane" against guess "arena" does
not yield five `PRESENT` tokens (positions 1 and 3, `r` and `n`, match). -/
theorem C8_counterexample :
    score_guess ['c', 'r', 'a', 'n', 'e'] ['a', 'r', 'e', 'n', 'a'] ≠
      some [Token.present, Token.present, Token.present, Token.present, Token.present] := by
  decide

/-- C8 (amended): scoring target "crane" against guess "arena" yields
`[PRESENT, HIT, PRESENT, HIT, MISS]`: `r` and `n` are positional matches,
the leading `a` and the `e` are present elsewhere, and the final `a` is a
miss because the single `a` of the target is already consumed. -/
theorem C8_amended_crane_arena :
    score_guess ['c', 'r', 'a', 'n', 'e'] ['a', 'r', 'e', 'n', 'a'] =
      some [Token.present, Token.hit, Token.present, Token.hit, Token.miss] := by
  decide

/-- C7 counterexample: with `max_rounds = 1`, a second legal guess on a
`NormalWordleGame` produces a `RoundResult` whose `remaining` is `-1`
(nothing in the game object stops guessing after `over`). -/
theorem C7_counterexample :
    (((NormalWordleGame.init wA ⟨1, [wA, wC]⟩).guess_word wC).2.guess_word wC).1 =
      GRes.ok { guess := wC, tokens := [Token.miss, Token.miss],
                remaining := -1, won := false, over := true } := by
  decide

/-- C7 (amended): every `RoundResult` produced by a `guess_word` call made
while the round counter is still strictly below `max_rounds` has a
non-negative `remaining` field, for both game variants. -/
theorem C7_amended_remaining_nonneg (nst : NormalWordleGame) (cst : CheatingWordleGame)
    (w v : List Char) (rr rr' : RoundResult)
    (hn : (nst.round : Int) < nst.cfg.max_rounds)
    (hc : (cst.round : Int) < cst.cfg.max_rounds)
    (h1 : (nst.guess_word w).1 = GRes.ok rr)
    (h2 : (cst.guess_word v).1 = GRes.ok rr') :
    0 ≤ rr.remaining ∧ 0 ≤ rr'.remaining := by
  constructor
  · simp only [NormalWordleGame.guess_word] at h1
    split at h1
    · simp at h1
    · split at h1
      · simp at h1
      · split at h1
        · simp at h1
        · simp only [GRes.ok.injEq] at h1
          rw [← h1]
          simp only []
          omega
  · simp only [CheatingWordleGame.guess_word] at h2
    split at h2
    · simp at h2
    · split at h2
      · -- delegation to a fresh NormalWordleGame (round 0)
        simp only [NormalWordleGame.guess_word, NormalWordleGame.init] at h2
        split at h2
        · simp at h2
        · split at h2
          · simp at h2
          · split at h2
            · simp at h2
            · simp only [GRes.ok.injEq] at h2
              rw [← h2]
              simp only []
              omega
      · split at h2
        · simp at h2
        · split at h2
          · simp at h2
          · simp only [GRes.ok.injEq] at h2
            rw [← h2]
            simp only []
            omega

/-- C7 witness: the amended theorem applied to concrete first guesses of
both game variants. -/
theorem C7_amended_witness :
    0 ≤ (RoundResult.mk wC [Token.miss, Token.miss] 5 false false).remaining ∧
    0 ≤ (RoundResult.mk wA [Token.miss, Token.miss] 5 false false).remaining :=
  C7_amended_remaining_nonneg (NormalWordleGame.init wA cfgSmall)
    (CheatingWordleGame.init cfgSmall) wC wA _ _
    (by decide) (by decide) (by decide) (by decide)

/-- On a raised error (with a normalized answer, as every constructed game
has), `NormalWordleGame.guess_word` leaves the state untouched. -/
theorem normal_guess_err_state (st : NormalWordleGame) (w : List Char) (e : GameError)
    (hans : normalize st.answer = st.answer)
    (h : (st.guess_word w).1 = GRes.err e) :
    st.guess_word w = (GRes.err e, st) := by
  by_cases hlen : (normalize w).length = st.answer.length
  · by_cases hmem : normalize w ∈ st.cfg.word_list
    · rw [normal_guess_spec st w hans hlen hmem] at h
      simp at h
    · rw [normal_guess_dict_err st w hlen hmem] at h ⊢
      simp only [GRes.err.injEq] at h
      rw [h]
  · rw [normal_guess_len_err st w hlen] at h ⊢
    simp only [GRes.err.injEq] at h
    rw [h]

/-- `guess_word` only depends on the normalized guess. -/
theorem normal_guess_normalize (st : NormalWordleGame) (w : List Char) :
    st.guess_word (normalize w) = st.guess_word w := by
  simp only [NormalWordleGame.guess_word, normalize_idem]

/-- C4: a legal guess on a `NormalWordleGame` increments the round counter
by one, scores against the fixed answer, sets `won` iff all tokens are
`HIT`, sets `over = won OR round ≥ max_rounds`, appends a `RoundResult`
with `remaining = max_rounds - round`, and preserves the invariant
`history.length = round`. -/
theorem C4_normal_guess_effect (st : NormalWordleGame) (w : List Char)
    (hans : normalize st.answer = st.answer)
    (hlen : (normalize w).length = st.answer.length)
    (hmem : normalize w ∈ st.cfg.word_list)
    (hinv : st.history.length = st.round) :
    ∃ rr st', st.guess_word w = (GRes.ok rr, st') ∧
      st'.round = st.round + 1 ∧
      rr.tokens = scoreCore st.answer (normalize w) ∧
      (rr.won = true ↔ ∀ t ∈ rr.tokens, t = Token.hit) ∧
      rr.over = (rr.won || decide ((st'.round : Int) ≥ st.cfg.max_rounds)) ∧
      rr.remaining = st.cfg.max_rounds - (st'.round : Int) ∧
      st'.history = st.history ++ [rr] ∧
      st'.history.length = st'.round := by
  refine ⟨_, _, normal_guess_spec st w hans hlen hmem, rfl, rfl, ?_, rfl, rfl, rfl, ?_⟩
  · simp [List.all_eq_true]
  · simp [hinv]

/-- C4 witness: guessing the answer itself on a fresh two-word game. -/
theorem C4_witness :
    ∃ rr st', (NormalWordleGame.init wA cfgSmall).guess_word wA = (GRes.ok rr, st') ∧
      st'.round = (NormalWordleGame.init wA cfgSmall).round + 1 ∧
      rr.tokens = scoreCore (NormalWordleGame.init wA cfgSmall).answer (normalize wA) ∧
      (rr.won = true ↔ ∀ t ∈ rr.tokens, t = Token.hit) ∧
      rr.over = (rr.won || decide ((st'.round : Int) ≥ cfgSmall.max_rounds)) ∧
      rr.remaining = cfgSmall.max_rounds - (st'.round : Int) ∧
      st'.history = (NormalWordleGame.init wA cfgSmall).history ++ [rr] ∧
      st'.history.length = st'.round :=
  C4_normal_guess_effect (NormalWordleGame.init wA cfgSmall) wA
    (by decide) (by decide) (by decide) (by decide)

/-- C5 counterexample: the guess "abc" is not in the word list of a game
whose answer is "ab", yet `guess_word` fails with the length error
(`InvalidInput`), not `IllegalWord`. -/
theorem C5_counterexample :
    normalize ['a', 'b', 'c'] ∉ (GameConfig.mk 6 [wA]).word_list ∧
    ((NormalWordleGame.init wA ⟨6, [wA]⟩).guess_word ['a', 'b', 'c']).1 ≠
      GRes.err GameError.illegalWord ∧
    ((NormalWordleGame.init wA ⟨6, [wA]⟩).guess_word ['a', 'b', 'c']).1 =
      GRes.err GameError.invalidInput := by
  decide

/-- C5 (amended): an answer-length guess outside the word list fails with
`IllegalWord`; a wrong-length guess fails with `InvalidInput`; in both
cases the game state is unchanged.  At the room level, a guess on an
already-over room and a guess the game rejects each produce only the
direct error ack (no broadcast) and leave the room unchanged. -/
theorem C5_amended_rejections (st : NormalWordleGame) (room : MultiRoom)
    (player w : List Char) (e : GameError)
    (hans : normalize room.game.answer = room.game.answer) :
    ((normalize w).length = st.answer.length → normalize w ∉ st.cfg.word_list →
      st.guess_word w = (GRes.err GameError.illegalWord, st)) ∧
    ((normalize w).length ≠ st.answer.length →
      st.guess_word w = (GRes.err GameError.invalidInput, st)) ∧
    (room.over = true →
      room.handleGuess player w = (room, [Msg.ackErr GameError.gameOver])) ∧
    (room.over = false → (room.game.guess_word w).1 = GRes.err e →
      room.handleGuess player w = (room, [Msg.ackErr e])) := by
  refine ⟨fun hlen hmem => normal_guess_dict_err st w hlen hmem,
          fun hlen => normal_guess_len_err st w hlen, ?_, ?_⟩
  · intro hover
    simp [MultiRoom.handleGuess, hover]
  · intro hover herr
    obtain ⟨g, o⟩ := room
    simp only at hover hans herr
    subst hover
    simp only [MultiRoom.handleGuess, Bool.false_eq_true, if_false]
    rw [normal_guess_err_state g w e hans herr]

/-- C5 witness: a legal-length word outside the dictionary is rejected as
`IllegalWord` with the game state intact, and the room forwards the
rejection to the guesser only. -/
theorem C5_amended_witness :
    (NormalWordleGame.init wA ⟨6, [wA]⟩).guess_word wC =
      (GRes.err GameError.illegalWord, NormalWordleGame.init wA ⟨6, [wA]⟩) ∧
    MultiRoom.handleGuess ⟨NormalWordleGame.init wA ⟨6, [wA]⟩, false⟩ ['p'] wC =
      (⟨NormalWordleGame.init wA ⟨6, [wA]⟩, false⟩, [Msg.ackErr GameError.illegalWord]) := by
  have h := C5_amended_rejections (NormalWordleGame.init wA ⟨6, [wA]⟩)
    ⟨NormalWordleGame.init wA ⟨6, [wA]⟩, false⟩ ['p'] wC GameError.illegalWord (by decide)
  exact ⟨h.1 (by decide) (by decide), h.2.2.2 rfl (by decide)⟩

/-- C3 counterexample: after the candidate set of the cheating game has
collapsed to "cd", the *second* subsequent call does not match the second
call of a `StandardGame` built on "cd" (the code builds a fresh
`NormalWordleGame` on every delegated call, so the round never advances). -/
theorem C3_counterexample :
    ((CheatingWordleGame.init cfgSmall).guess_word wA).2.final = some wC ∧
    (((((CheatingWordleGame.init cfgSmall).guess_word wA).2.guess_word wC).2).guess_word wC).1 ≠
      ((((NormalWordleGame.init wC cfgSmall).guess_word wC).2).guess_word wC).1 := by
  decide

/-- C3 (amended): once a (non-empty) final answer is recorded, every
subsequent `guess_word` call on the cheating game returns exactly the
result of the **first** guess of a freshly constructed `StandardGame` on
the resolved word with the same config, and leaves the cheating game's
state — including the resolved answer — unchanged, so the transition is
irreversible; the round counter does not progress across delegated calls. -/
theorem C3_amended_delegates_fresh (st : CheatingWordleGame) (f w : List Char)
    (hf : st.final = some f) (hne : f ≠ [])
    (hmem : normalize w ∈ st.cfg.word_list) :
    st.guess_word w = (((NormalWordleGame.init f st.cfg).guess_word w).1, st) := by
  have htruthy : optTruthy st.final = true := by
    rw [hf]
    simp [optTruthy, hne]
  simp only [CheatingWordleGame.guess_word]
  rw [if_neg (not_not_intro hmem), if_pos htruthy, hf]
  rw [normal_guess_normalize]
  simp only [Option.getD_some]

/-- C3 witness: the resolved state reached in the counterexample run,
delegating to the fresh standard game. -/
theorem C3_amended_witness :
    (CheatingWordleGame.mk cfgSmall [wC] (some wC) 1).guess_word wC =
      (((NormalWordleGame.init wC cfgSmall).guess_word wC).1,
        CheatingWordleGame.mk cfgSmall [wC] (some wC) 1) :=
  C3_amended_delegates_fresh (CheatingWordleGame.mk cfgSmall [wC] (some wC) 1) wC wC
    rfl (by decide) (by decide)

/-- C9: for an accepted multiplayer guess the emitted message sequence is
the direct ack, then the `"guess"` broadcast, then — exactly when the guess
is credited as a win — the `"game_over"` broadcast. -/
theorem C9_ack_before_broadcast (room : MultiRoom) (player w : List Char)
    (rr : RoundResult) (game' : NormalWordleGame)
    (hover : room.over = false)
    (hok : room.game.guess_word w = (GRes.ok rr, game')) :
    (room.handleGuess player w).2 =
      [Msg.ackOk player rr.tokens rr.won rr.over rr.remaining,
       Msg.bcastGuess player rr.tokens rr.won rr.over rr.remaining] ++
      (if rr.won = true ∧ player ≠ [] then [Msg.bcastGameOver player] else []) := by
  simp only [MultiRoom.handleGuess, hover, Bool.false_eq_true, if_false]
  rw [hok]
  simp only [Bool.not_false, Bool.and_true]
  cases hw : rr.won with
  | false =>
    simp [optTruthy, hw]
  | true =>
    by_cases hp : player = []
    · subst hp
      simp [optTruthy]
    · have : (if rr.won = true then some player else none) = some player := by
        rw [hw]
        simp
      simp only [hw, if_true, optTruthy]
      simp [hp, List.isEmpty_iff]

/-- C9 witness: a winning guess in a two-player room emits ack, guess
broadcast, and game-over broadcast in that order. -/
theorem C9_witness :
    ((MultiRoom.mk (NormalWordleGame.init wA cfgSmall) false).handleGuess ['p'] wA).2 =
      [Msg.ackOk ['p'] [Token.hit, Token.hit] true true 5,
       Msg.bcastGuess ['p'] [Token.hit, Token.hit] true true 5,
       Msg.bcastGameOver ['p']] := by
  have h := C9_ack_before_broadcast (MultiRoom.mk (NormalWordleGame.init wA cfgSmall) false)
    ['p'] wA
    (RoundResult.mk wA [Token.hit, Token.hit] 5 true true)
    (NormalWordleGame.mk wA cfgSmall 1 [RoundResult.mk wA [Token.hit, Token.hit] 5 true true])
    rfl (by decide)
  rw [h]
  decide

/-! ### Scorer correctness (C1) -/

theorem firstPass_length :
    ∀ (a g : List Char), (firstPass a g).length = min a.length g.length
  | [], _ => by simp [firstPass]
  | _ :: _, [] => by simp [firstPass]
  | x :: xs, y :: ys => by
    simp [firstPass, firstPass_length xs ys, Nat.succ_min_succ]

theorem secondPass_length :
    ∀ (l : List (Char × Token)) (remain : Char → Nat),
      (secondPass l remain).length = l.length
  | [], _ => rfl
  | (c, t) :: rest, remain => by
    simp only [secondPass]
    split
    · simp [secondPass_length rest]
    · split
      · simp [secondPass_length rest]
      · simp [secondPass_length rest]

/-- The output token at a position is `HIT` exactly when the answer and the
guess agree there, whatever the availability counter is. -/
theorem secondPass_hit_iff :
    ∀ (a g : List Char) (remain : Char → Nat) (i : Nat),
      a.length = g.length → i < a.length →
      ((secondPass (g.zip (firstPass a g)) remain).getD i Token.miss = Token.hit ↔
        a.getD i 'a' = g.getD i 'a')
  | [], _, _, i, _, hi => by simp at hi
  | _ :: _, [], _, _, hlen, _ => by simp at hlen
  | x :: xs, y :: ys, remain, i, hlen, hi => by
    simp only [List.length_cons, Nat.add_right_cancel_iff] at hlen
    by_cases hyx : y = x
    · simp only [firstPass, if_pos hyx, List.zip_cons_cons, secondPass, if_pos rfl]
      cases i with
      | zero => simp [hyx]
      | succ n =>
        simp only [List.getD_cons_succ]
        exact secondPass_hit_iff xs ys remain n hlen (by simpa using hi)
    · simp only [firstPass, if_neg hyx, List.zip_cons_cons, secondPass]
      rw [if_neg (by simp)]
      cases i with
      | zero =>
        split
        · simp only [List.getD_cons_zero]
          constructor
          · intro h; exact absurd h (by simp)
          · intro h; exact absurd h.symm hyx
        · simp only [List.getD_cons_zero]
          constructor
          · intro h; exact absurd h (by simp)
          · intro h; exact absurd h.symm hyx
      | succ n =>
        have hrec := fun r => secondPass_hit_iff xs ys r n hlen (by simpa using hi)
        split
        · simpa only [List.getD_cons_succ] using hrec _
        · simpa only [List.getD_cons_succ] using hrec _

/-- The second pass emits at most `remain c` `PRESENT` tokens at guess
positions holding `c`. -/
theorem secondPass_present_le (c : Char) :
    ∀ (l : List (Char × Token)) (remain : Char → Nat),
      ((l.map Prod.fst).zip (secondPass l remain)).countP
        (fun q => q.1 == c && q.2 == Token.present) ≤ remain c
  | [], _ => Nat.zero_le _
  | (d, t) :: rest, remain => by
    simp only [List.map_cons, secondPass]
    split
    · have hrec := secondPass_present_le c rest remain
      simp only [List.zip_cons_cons, List.countP_cons]
      simp
      omega
    · split
      · rename_i hne hpos
        simp only [List.zip_cons_cons, List.countP_cons]
        by_cases hdc : d = c
        · subst hdc
          have hrec := secondPass_present_le d rest
            (fun x => if x = d then remain d - 1 else remain x)
          simp at hrec
          simp
          omega
        · have hrec := secondPass_present_le c rest
            (fun x => if x = d then remain d - 1 else remain x)
          rw [if_neg (fun h => hdc h.symm)] at hrec
          simp [hdc]
          omega
      · have hrec := secondPass_present_le c rest remain
        simp only [List.zip_cons_cons, List.countP_cons]
        simp
        omega

/-- The second pass neither creates nor destroys `HIT` tokens: counting
hits at guess positions holding `c` over the output equals the same count
over the first-pass tokens. -/
theorem secondPass_hit_count (c : Char) :
    ∀ (l : List (Char × Token)) (remain : Char → Nat),
      ((l.map Prod.fst).zip (secondPass l remain)).countP
        (fun q => q.1 == c && q.2 == Token.hit) =
      l.countP (fun q => q.1 == c && q.2 == Token.hit)
  | [], _ => rfl
  | (d, t) :: rest, remain => by
    simp only [List.map_cons, secondPass]
    split
    · rename_i hhit
      subst hhit
      simp only [List.zip_cons_cons, List.countP_cons, secondPass_hit_count c rest remain]
    · rename_i hne
      have hts : (t == Token.hit) = false := by
        cases t
        · exact absurd rfl hne
        · rfl
        · rfl
      split
      · have hrec := secondPass_hit_count c rest
          (fun x => if x = d then remain d - 1 else remain x)
        simp only [List.zip_cons_cons, List.countP_cons, hrec]
        simp [hts]
      · have hrec := secondPass_hit_count c rest remain
        simp only [List.zip_cons_cons, List.countP_cons, hrec]
        simp [hts]

/-- First-pass accounting: the availability counter for `c` plus the hits
at guess positions holding `c` equals the multiplicity of `c` in the
answer. -/
theorem remainInit_add_hits (c : Char) :
    ∀ (a g : List Char), a.length = g.length →
      remainInit a g c +
        (g.zip (firstPass a g)).countP (fun q => q.1 == c && q.2 == Token.hit) =
      a.count c
  | [], [], _ => rfl
  | _ :: _, [], hlen => by simp at hlen
  | [], _ :: _, hlen => by simp at hlen
  | x :: xs, y :: ys, hlen => by
    simp only [List.length_cons, Nat.add_right_cancel_iff] at hlen
    have hrec := remainInit_add_hits c xs ys hlen
    simp only [remainInit, firstPass, List.count_cons, List.zip_cons_cons, List.countP_cons]
    by_cases hyx : y = x
    · subst hyx
      by_cases hyc : y = c
      · subst hyc
        simp
        omega
      · simp [hyc]
        omega
    · by_cases hxc : x = c
      · subst hxc
        simp [hyx]
        omega
      · simp [hyx, hxc]
        omega

/-- Splitting a disjunctive count into two disjoint counts. -/
theorem countP_or_disjoint (l : List (Char × Token)) (p q : Char × Token → Bool)
    (h : ∀ x, ¬(p x = true ∧ q x = true)) :
    l.countP (fun x => p x || q x) = l.countP p + l.countP q := by
  induction l with
  | nil => rfl
  | cons a t ih =>
    simp only [List.countP_cons, ih]
    by_cases hp : p a
    · have hq : q a = false := by
        cases hq : q a
        · rfl
        · exact absurd ⟨hp, hq⟩ (h a)
      simp [hp, hq]
      omega
    · have hp' : p a = false := by simpa using hp
      simp [hp']
      by_cases hq : q a
      · simp [hq]
        omega
      · simp [hq]

/-- C1: on equal-length normalized words, `score_guess` returns a pattern
whose `HIT` tokens sit exactly at the agreeing positions, and for every
letter `c` the `HIT`+`PRESENT` count at guess positions holding `c` never
exceeds the multiplicity of `c` in the target. -/
theorem C1_score_hits_and_multiplicity (t g : List Char)
    (ht : normalize t = t) (hg : normalize g = g) (hlen : t.length = g.length) :
    ∃ pat, score_guess t g = some pat ∧ pat.length = t.length ∧
      (∀ i, i < pat.length →
        (pat.getD i Token.miss = Token.hit ↔ t.getD i 'a' = g.getD i 'a')) ∧
      ∀ c : Char,
        (g.zip pat).countP
          (fun q => q.1 == c && (q.2 == Token.hit || q.2 == Token.present)) ≤
        t.count c := by
  have hfp : (firstPass t g).length = g.length := by
    rw [firstPass_length, hlen, Nat.min_self]
  have hzip : (g.zip (firstPass t g)).length = g.length := by
    rw [List.length_zip, hfp, Nat.min_self]
  have hplen : (scoreCore t g).length = t.length := by
    rw [scoreCore, secondPass_length, hzip, hlen]
  have hmap : (g.zip (firstPass t g)).map Prod.fst = g :=
    List.map_fst_zip g (firstPass t g) (by rw [hfp])
  refine ⟨scoreCore t g, score_guess_eq t g ht hg hlen, hplen, ?_, ?_⟩
  · intro i hi
    rw [hplen] at hi
    exact secondPass_hit_iff t g (remainInit t g) i hlen hi
  · intro c
    have hsplit :
        (g.zip (scoreCore t g)).countP
          (fun q => q.1 == c && (q.2 == Token.hit || q.2 == Token.present)) =
        (g.zip (scoreCore t g)).countP (fun q => q.1 == c && q.2 == Token.hit) +
        (g.zip (scoreCore t g)).countP (fun q => q.1 == c && q.2 == Token.present) := by
      rw [List.countP_congr (q := fun q =>
        (q.1 == c && q.2 == Token.hit) || (q.1 == c && q.2 == Token.present))]
      · exact countP_or_disjoint _ _ _ (by
          rintro ⟨d, u⟩ ⟨h1, h2⟩
          simp only [Bool.and_eq_true, beq_iff_eq] at h1 h2
          rw [h1.2] at h2
          exact absurd h2.2 (by simp))
      · rintro ⟨d, u⟩ _
        cases u <;> cases hdc : d == c <;> simp [hdc]
    have hhit : (g.zip (scoreCore t g)).countP (fun q => q.1 == c && q.2 == Token.hit) =
        (g.zip (firstPass t g)).countP (fun q => q.1 == c && q.2 == Token.hit) := by
      have := secondPass_hit_count c (g.zip (firstPass t g)) (remainInit t g)
      rw [hmap] at this
      exact this
    have hpres : (g.zip (scoreCore t g)).countP
        (fun q => q.1 == c && q.2 == Token.present) ≤ remainInit t g c := by
      have := secondPass_present_le c (g.zip (firstPass t g)) (remainInit t g)
      rw [hmap] at this
      exact this
    have hacc := remainInit_add_hits c t g hlen
    rw [hsplit, hhit]
    omega

/-- C1 witness: the theorem applied to the concrete pair "crane"/"arena". -/
theorem C1_witness :
    ∃ pat, score_guess ['c', 'r', 'a', 'n', 'e'] ['a', 'r', 'e', 'n', 'a'] = some pat ∧
      pat.length = (['c', 'r', 'a', 'n', 'e'] : List Char).length ∧
      (∀ i, i < pat.length →
        (pat.getD i Token.miss = Token.hit ↔
          (['c', 'r', 'a', 'n', 'e'] : List Char).getD i 'a' =
          (['a', 'r', 'e', 'n', 'a'] : List Char).getD i 'a')) ∧
      ∀ c : Char,
        ((['a', 'r', 'e', 'n', 'a'] : List Char).zip pat).countP
          (fun q => q.1 == c && (q.2 == Token.hit || q.2 == Token.present)) ≤
        (['c', 'r', 'a', 'n', 'e'] : List Char).count c :=
  C1_score_hits_and_multiplicity ['c', 'r', 'a', 'n', 'e'] ['a', 'r', 'e', 'n', 'a']
    (by decide) (by decide) (by decide)

/-! ### Bucket machinery (C2, C6) -/

theorem addToBuckets_size (k : Nat × Nat × List Token) (c : List Char) :
    ∀ bs : List Bucket, bucketsSize (addToBuckets k c bs) = bucketsSize bs + 1
  | [] => by simp [addToBuckets, bucketsSize]
  | (k', s) :: rest => by
    simp only [addToBuckets]
    split
    · simp [bucketsSize]
      omega
    · have hrec := addToBuckets_size k c rest
      simp only [bucketsSize, List.map_cons, List.sum_cons] at hrec ⊢
      omega

theorem buildBuckets_size (w : List Char) :
    ∀ (cs : List (List Char)) (acc bs : List Bucket),
      buildBuckets w cs acc = some bs → bucketsSize bs = bucketsSize acc + cs.length
  | [], acc, bs, h => by
    simp only [buildBuckets, Option.some.injEq] at h
    simp [← h]
  | c :: cs, acc, bs, h => by
    simp only [buildBuckets] at h
    cases hsc : score_guess c w with
    | none => rw [hsc] at h; exact absurd h (by simp)
    | some pat =>
      rw [hsc] at h
      have := buildBuckets_size w cs (addToBuckets (pat.count Token.hit,
        pat.count Token.present, pat) c acc) bs h
      rw [this, addToBuckets_size]
      simp
      omega

theorem mem_size_le :
    ∀ (bs : List Bucket) (b : Bucket), b ∈ bs → b.2.length ≤ bucketsSize bs
  | [], b, h => absurd h (List.not_mem_nil b)
  | b0 :: rest, b, h => by
    rcases List.mem_cons.mp h with h1 | h1
    · subst h1
      simp only [bucketsSize, List.map_cons, List.sum_cons]
      omega
    · have hrec := mem_size_le rest b h1
      simp only [bucketsSize, List.map_cons, List.sum_cons] at hrec ⊢
      omega

theorem addToBuckets_mem_elem (k : Nat × Nat × List Token) (c : List Char) :
    ∀ (bs : List Bucket) (x : List Char),
      (∃ b ∈ addToBuckets k c bs, x ∈ b.2) → x = c ∨ ∃ b ∈ bs, x ∈ b.2
  | [], x, ⟨b, hb, hx⟩ => by
    simp only [addToBuckets, List.mem_singleton] at hb
    subst hb
    simp only [List.mem_singleton] at hx
    exact Or.inl hx
  | (k', s) :: rest, x, ⟨b, hb, hx⟩ => by
    simp only [addToBuckets] at hb
    split at hb
    · rcases List.mem_cons.mp hb with h1 | h1
      · subst h1
        simp only [List.mem_append, List.mem_singleton] at hx
        rcases hx with h2 | h2
        · exact Or.inr ⟨(k', s), List.mem_cons_self _ _, h2⟩
        · exact Or.inl h2
      · exact Or.inr ⟨b, List.mem_cons_of_mem _ h1, hx⟩
    · rcases List.mem_cons.mp hb with h1 | h1
      · subst h1
        exact Or.inr ⟨(k', s), List.mem_cons_self _ _, hx⟩
      · rcases addToBuckets_mem_elem k c rest x ⟨b, h1, hx⟩ with h2 | ⟨b', hb', hx'⟩
        · exact Or.inl h2
        · exact Or.inr ⟨b', List.mem_cons_of_mem _ hb', hx'⟩

theorem buildBuckets_mem (w : List Char) :
    ∀ (cs : List (List Char)) (acc bs : List Bucket),
      buildBuckets w cs acc = some bs →
      ∀ x, (∃ b ∈ bs, x ∈ b.2) → (∃ b ∈ acc, x ∈ b.2) ∨ x ∈ cs
  | [], acc, bs, h, x, hx => by
    simp only [buildBuckets, Option.some.injEq] at h
    subst h
    exact Or.inl hx
  | c :: cs, acc, bs, h, x, hx => by
    simp only [buildBuckets] at h
    cases hsc : score_guess c w with
    | none => rw [hsc] at h; exact absurd h (by simp)
    | some pat =>
      rw [hsc] at h
      rcases buildBuckets_mem w cs _ bs h x hx with h1 | h1
      · rcases addToBuckets_mem_elem _ c acc x h1 with h2 | h2
        · exact Or.inr (h2 ▸ List.mem_cons_self _ _)
        · exact Or.inl h2
      · exact Or.inr (List.mem_cons_of_mem _ h1)

theorem addToBuckets_wf (w : List Char) (pat : List Token) (c : List Char)
    (hc : score_guess c w = some pat) :
    ∀ bs : List Bucket, BucketsWF w bs →
      BucketsWF w (addToBuckets (pat.count Token.hit, pat.count Token.present, pat) c bs)
  | [], _ => by
    intro b hb
    simp only [addToBuckets, List.mem_singleton] at hb
    subst hb
    refine ⟨⟨rfl, rfl⟩, ?_⟩
    intro x hx
    simp only [List.mem_singleton] at hx
    subst hx
    exact hc
  | (k', s) :: rest, hwf => by
    intro b hb
    simp only [addToBuckets] at hb
    split at hb
    · rename_i hkeq
      rcases List.mem_cons.mp hb with h1 | h1
      · subst h1
        refine ⟨(hwf (k', s) (List.mem_cons_self _ _)).1, ?_⟩
        intro x hx
        simp only [List.mem_append, List.mem_singleton] at hx
        rcases hx with h2 | h2
        · exact (hwf (k', s) (List.mem_cons_self _ _)).2 x h2
        · subst h2
          rw [hc, hkeq]
      · exact hwf b (List.mem_cons_of_mem _ h1)
    · rcases List.mem_cons.mp hb with h1 | h1
      · subst h1
        exact hwf (k', s) (List.mem_cons_self _ _)
      · exact addToBuckets_wf w pat c hc rest
          (fun b' hb' => hwf b' (List.mem_cons_of_mem _ hb')) b h1

theorem buildBuckets_wf (w : List Char) :
    ∀ (cs : List (List Char)) (acc bs : List Bucket),
      buildBuckets w cs acc = some bs → BucketsWF w acc → BucketsWF w bs
  | [], acc, bs, h, hwf => by
    simp only [buildBuckets, Option.some.injEq] at h
    subst h
    exact hwf
  | c :: cs, acc, bs, h, hwf => by
    simp only [buildBuckets] at h
    cases hsc : score_guess c w with
    | none => rw [hsc] at h; exact absurd h (by simp)
    | some pat =>
      rw [hsc] at h
      exact buildBuckets_wf w cs _ bs h (addToBuckets_wf w pat c hsc acc hwf)

theorem buildBuckets_total (w : List Char) :
    ∀ (cs : List (List Char)) (acc : List Bucket),
      (∀ c ∈ cs, (score_guess c w).isSome) →
      ∃ bs, buildBuckets w cs acc = some bs
  | [], acc, _ => ⟨acc, rfl⟩
  | c :: cs, acc, h => by
    have hc : (score_guess c w).isSome := h c (List.mem_cons_self _ _)
    cases hsc : score_guess c w with
    | none => rw [hsc] at hc; exact absurd hc (by simp)
    | some pat =>
      simp only [buildBuckets, hsc]
      exact buildBuckets_total w cs _ (fun c' hc' => h c' (List.mem_cons_of_mem _ hc'))

/-- Invariant of the selection scan: starting from `some b0`, it returns a
bucket drawn from the scanned list (or `b0` itself) whose `(h, p)` key is
lexicographically minimal and whose size is maximal among the equal-key
buckets seen. -/
theorem selectBucket_spec :
    ∀ (l : List Bucket) (b0 : Bucket),
      ∃ b, selectBucket l (some b0) = some b ∧
        (b = b0 ∨ b ∈ l) ∧
        keyLe (keyOf b) (keyOf b0) ∧
        (keyOf b = keyOf b0 → b0.2.length ≤ b.2.length) ∧
        ∀ p ∈ l, keyLe (keyOf b) (keyOf p) ∧
          (keyOf b = keyOf p → p.2.length ≤ b.2.length)
  | [], b0 =>
    ⟨b0, rfl, Or.inl rfl, Or.inr ⟨rfl, Nat.le_refl _⟩, fun _ => Nat.le_refl _,
      fun p hp => absurd hp (List.not_mem_nil p)⟩
  | q :: rest, b0 => by
    simp only [selectBucket]
    split
    · rename_i hcond
      simp only [keyLtb, Bool.or_eq_true, Bool.and_eq_true, decide_eq_true_eq,
        Prod.mk.injEq] at hcond
      obtain ⟨b, hb, hmem, hle, heq, hall⟩ := selectBucket_spec rest q
      refine ⟨b, hb, ?_, ?_, ?_, ?_⟩
      · rcases hmem with h1 | h1
        · exact Or.inr (h1 ▸ List.mem_cons_self _ _)
        · exact Or.inr (List.mem_cons_of_mem _ h1)
      · simp only [keyOf, keyLe, Prod.mk.injEq] at hle ⊢
        omega
      · intro hbe
        simp only [keyOf, keyLe, Prod.mk.injEq] at hle heq hbe
        omega
      · intro p hp
        rcases List.mem_cons.mp hp with h1 | h1
        · subst h1
          exact ⟨hle, heq⟩
        · exact hall p h1
    · rename_i hcond
      simp only [keyLtb, Bool.or_eq_true, Bool.and_eq_true, decide_eq_true_eq,
        Prod.mk.injEq] at hcond
      obtain ⟨b, hb, hmem, hle, heq, hall⟩ := selectBucket_spec rest b0
      refine ⟨b, hb, ?_, hle, heq, ?_⟩
      · rcases hmem with h1 | h1
        · exact Or.inl h1
        · exact Or.inr (List.mem_cons_of_mem _ h1)
      · intro p hp
        rcases List.mem_cons.mp hp with h1 | h1
        · subst h1
          constructor
          · simp only [keyOf, keyLe, Prod.mk.injEq] at hle ⊢
            omega
          · intro hbe
            simp only [keyOf, keyLe, Prod.mk.injEq] at hle heq hbe
            omega
        · exact hall p h1

theorem selectBucket_none_spec (l : List Bucket) (hne : l ≠ []) :
    ∃ b, selectBucket l none = some b ∧ b ∈ l ∧
      ∀ p ∈ l, keyLe (keyOf b) (keyOf p) ∧
        (keyOf b = keyOf p → p.2.length ≤ b.2.length) := by
  cases l with
  | nil => exact absurd rfl hne
  | cons q rest =>
    obtain ⟨b, hb, hmem, hle, heq, hall⟩ := selectBucket_spec rest q
    refine ⟨b, hb, ?_, ?_⟩
    · rcases hmem with h1 | h1
      · exact h1 ▸ List.mem_cons_self _ _
      · exact List.mem_cons_of_mem _ h1
    · intro p hp
      rcases List.mem_cons.mp hp with h1 | h1
      · subst h1
        exact ⟨hle, heq⟩
      · exact hall p h1

/-- The successful main path of `CheatingWordleGame.guess_word`, fully
evaluated. -/
theorem cheat_guess_main (st : CheatingWordleGame) (w : List Char)
    (hfin : optTruthy st.final = false)
    (hmem : normalize w ∈ st.cfg.word_list)
    (buckets : List Bucket) (best : Bucket)
    (hbb : buildBuckets (normalize w) st.candidates [] = some buckets)
    (hsel : selectBucket buckets none = some best) :
    st.guess_word w =
      (GRes.ok { guess := normalize w, tokens := best.1.2.2,
                 remaining := st.cfg.max_rounds - ((st.round + 1 : Nat) : Int),
                 won := false,
                 over := decide (((st.round + 1 : Nat) : Int) ≥ st.cfg.max_rounds) },
       { st with round := st.round + 1, candidates := best.2,
                 final := if best.2.length = 1 then some (best.2.headD []) else st.final }) := by
  simp only [CheatingWordleGame.guess_word]
  rw [if_neg (not_not_intro hmem), if_neg (by rw [hfin]; exact Bool.false_ne_true), hbb]
  dsimp only
  rw [hsel]

/-- C2: with no resolved answer yet, a legal guess on a non-empty candidate
set partitions the candidates by the exact pattern each would produce,
retains one of the buckets, and that bucket's `(hitCount, presentCount)`
key is lexicographically minimal, of maximal size among the buckets
sharing the minimal key. -/
theorem C2_adversarial_bucket_choice (st : CheatingWordleGame) (w : List Char)
    (hfin : optTruthy st.final = false)
    (hne : st.candidates ≠ [])
    (hmem : normalize w ∈ st.cfg.word_list)
    (hsc : ∀ c ∈ st.candidates, (score_guess c (normalize w)).isSome) :
    ∃ buckets best,
      buildBuckets (normalize w) st.candidates [] = some buckets ∧
      selectBucket buckets none = some best ∧
      (st.guess_word w).2.candidates = best.2 ∧
      best ∈ buckets ∧
      (∀ b ∈ buckets, ∀ x ∈ b.2, score_guess x (normalize w) = some b.1.2.2) ∧
      (∀ b ∈ buckets, b.1.1 = b.1.2.2.count Token.hit ∧
        b.1.2.1 = b.1.2.2.count Token.present) ∧
      (∀ b ∈ buckets, keyLe (keyOf best) (keyOf b)) ∧
      (∀ b ∈ buckets, keyOf best = keyOf b → b.2.length ≤ best.2.length) := by
  obtain ⟨buckets, hbb⟩ := buildBuckets_total (normalize w) st.candidates [] hsc
  have hsize := buildBuckets_size (normalize w) st.candidates [] buckets hbb
  have hbne : buckets ≠ [] := by
    intro h
    rw [h] at hsize
    have : st.candidates.length = 0 := by
      simp only [bucketsSize, List.map_nil, List.sum_nil] at hsize
      omega
    exact hne (List.length_eq_zero.mp this)
  obtain ⟨best, hsel, hmemb, hall⟩ := selectBucket_none_spec buckets hbne
  have hwf := buildBuckets_wf (normalize w) st.candidates [] buckets hbb
    (fun b hb => absurd hb (List.not_mem_nil b))
  refine ⟨buckets, best, hbb, hsel, ?_, hmemb, ?_, ?_, ?_, ?_⟩
  · rw [cheat_guess_main st w hfin hmem buckets best hbb hsel]
  · exact fun b hb => (hwf b hb).2
  · exact fun b hb => (hwf b hb).1
  · exact fun b hb => (hall b hb).1
  · exact fun b hb => (hall b hb).2

/-- C2 witness: the first guess "ab" on the fresh two-word cheating game. -/
theorem C2_witness :
    ∃ buckets best,
      buildBuckets (normalize wA) (CheatingWordleGame.init cfgSmall).candidates [] =
        some buckets ∧
      selectBucket buckets none = some best ∧
      (((CheatingWordleGame.init cfgSmall).guess_word wA).2).candidates = best.2 ∧
      best ∈ buckets ∧
      (∀ b ∈ buckets, ∀ x ∈ b.2, score_guess x (normalize wA) = some b.1.2.2) ∧
      (∀ b ∈ buckets, b.1.1 = b.1.2.2.count Token.hit ∧
        b.1.2.1 = b.1.2.2.count Token.present) ∧
      (∀ b ∈ buckets, keyLe (keyOf best) (keyOf b)) ∧
      (∀ b ∈ buckets, keyOf best = keyOf b → b.2.length ≤ best.2.length) :=
  C2_adversarial_bucket_choice (CheatingWordleGame.init cfgSmall) wA
    (by decide) (by decide) (by decide) (by decide)

/-- Every call either keeps the candidate list, empties it, or replaces it
by one of the buckets of the partition of the current candidates. -/
theorem cheat_guess_candidates (st : CheatingWordleGame) (w : List Char) :
    (st.guess_word w).2.candidates = st.candidates ∨
    (st.guess_word w).2.candidates = [] ∨
    ∃ buckets best,
      buildBuckets (normalize w) st.candidates [] = some buckets ∧
      best ∈ buckets ∧ (st.guess_word w).2.candidates = best.2 := by
  simp only [CheatingWordleGame.guess_word]
  by_cases h1 : normalize w ∈ st.cfg.word_list
  · rw [if_neg (not_not_intro h1)]
    by_cases h2 : optTruthy st.final = true
    · rw [if_pos h2]
      exact Or.inl rfl
    · rw [if_neg h2]
      cases hbb : buildBuckets (normalize w) st.candidates [] with
      | none => exact Or.inl rfl
      | some buckets =>
        dsimp only
        cases hsel : selectBucket buckets none with
        | none => exact Or.inr (Or.inl rfl)
        | some best =>
          have hbne : buckets ≠ [] := by
            intro h
            rw [h] at hsel
            exact absurd hsel (by simp [selectBucket])
          obtain ⟨b, hb, hmemb, _⟩ := selectBucket_none_spec buckets hbne
          rw [hsel] at hb
          injection hb with hb
          subst hb
          exact Or.inr (Or.inr ⟨buckets, best, rfl, hmemb, rfl⟩)
  · rw [if_pos h1]
    exact Or.inl rfl

/-- C6: across any single `guess_word` call the candidate set is only ever
replaced by a subset of itself (the selected bucket, or the empty set on
the internal-consistency error), so its size never grows. -/
theorem C6_candidate_set_shrinks (st : CheatingWordleGame) (w : List Char) :
    (∀ x ∈ (st.guess_word w).2.candidates, x ∈ st.candidates) ∧
    (st.guess_word w).2.candidates.length ≤ st.candidates.length := by
  rcases cheat_guess_candidates st w with h | h | ⟨buckets, best, hbb, hmemb, hcand⟩
  · rw [h]
    exact ⟨fun _ hx => hx, Nat.le_refl _⟩
  · rw [h]
    exact ⟨fun x hx => absurd hx (List.not_mem_nil x), Nat.zero_le _⟩
  · rw [hcand]
    constructor
    · intro x hx
      rcases buildBuckets_mem (normalize w) st.candidates [] buckets hbb x
        ⟨best, hmemb, hx⟩ with ⟨b, hb, _⟩ | hxs
      · exact absurd hb (List.not_mem_nil b)
      · exact hxs
    · have h1 := mem_size_le buckets best hmemb
      have h2 := buildBuckets_size (normalize w) st.candidates [] buckets hbb
      simp only [bucketsSize, List.map_nil, List.sum_nil] at h1 h2
      omega

end WordleCore
